import Mathlib

/-!
Shallow embedding of the `fp` fixed-point arithmetic library.

Fixed-point values are stored as native integers; a type is described by its
storage integer type (width and signedness), a bit count `BITS` and a binary
point position `SHIFT`.  Machine integers are modelled as `Int` together with
explicit range predicates; unchecked native operations are modelled as
`Option Int`, returning `none` exactly when the real operation would overflow
(undefined behavior or a panic).  Floating-point values produced by the exact
conversion bridge are modelled as exact rationals: under the representability
preconditions asserted by the code every intermediate float operation is
exact, so the rational semantics coincides with IEEE double semantics there.
-/

namespace Fp

/-- Error type returned by checked construction (`RangeError` in `lib.rs`). -/
inductive RangeError
  | TooSmall
  | TooLarge
deriving DecidableEq

/-- A native storage integer type (the trait `Int` in `int.rs`):
a fixed width in bits and a signedness flag. -/
structure IntTy where
  width : Nat
  signed : Bool
deriving DecidableEq

/-- Constant `Int::MIN` from `int.rs`: `-(2^(width-1))` for signed storage, `0` for unsigned. -/
def IntTy.minv (t : IntTy) : Int :=
  if t.signed then -((2 : Int) ^ (t.width - 1)) else 0

/-- Constant `Int::MAX` from `int.rs`: `2^(width-1) - 1` for signed storage,
`2^width - 1` for unsigned. -/
def IntTy.maxv (t : IntTy) : Int :=
  if t.signed then (2 : Int) ^ (t.width - 1) - 1 else (2 : Int) ^ t.width - 1

/-- Associated type `Int::Signed` from `int.rs`: the signed companion type of the same width. -/
def IntTy.toSigned (t : IntTy) : IntTy := ⟨t.width, true⟩

/-- Whether `x` is a representable value of the storage type. -/
def IntTy.inRange (t : IntTy) (x : Int) : Prop := t.minv ≤ x ∧ x ≤ t.maxv

instance (t : IntTy) (x : Int) : Decidable (t.inRange x) :=
  inferInstanceAs (Decidable (t.minv ≤ x ∧ x ≤ t.maxv))

/-- Method `Int::as_signed` from `int.rs`: the Rust cast `self as Signed`.
It is the identity on signed storage, and a two's-complement reinterpretation
(wrapping at `2^(width-1)`) on unsigned storage. -/
def IntTy.asSigned (t : IntTy) (x : Int) : Int :=
  if t.signed then x
  else (x + 2 ^ (t.width - 1)) % 2 ^ t.width - 2 ^ (t.width - 1)

/-- Method `Int::unchecked_add` from `int.rs`: native addition whose result is
undefined (modelled as `none`) when the exact sum overflows the storage type. -/
def IntTy.uncheckedAdd (t : IntTy) (a b : Int) : Option Int :=
  if t.inRange (a + b) then some (a + b) else none

/-- Method `Int::unchecked_sub` from `int.rs`: native subtraction whose result is
undefined (modelled as `none`) when the exact difference overflows the storage type. -/
def IntTy.uncheckedSub (t : IntTy) (a b : Int) : Option Int :=
  if t.inRange (a - b) then some (a - b) else none

/-- Rust `unchecked_mul` on a native integer type (used by `Mul::mul` in `mul_div.rs`):
native multiplication, undefined (`none`) when the exact product overflows. -/
def IntTy.uncheckedMul (t : IntTy) (a b : Int) : Option Int :=
  if t.inRange (a * b) then some (a * b) else none

/-- Rust `/` on a native integer type (used by `Div::div` in `mul_div.rs`):
truncating division.  It panics (modelled as `none`) on a zero divisor, and also
when the quotient overflows the type (the signed `MIN / -1` case). -/
def IntTy.rustDiv (t : IntTy) (a b : Int) : Option Int :=
  if b = 0 then none
  else if t.inRange (a.tdiv b) then some (a.tdiv b) else none

/-- A fixed-point type `NumXxx<BITS, SHIFT>` from `num_impl.rs`: a storage type,
the number `BITS` of significant low-order bits, and the binary point `SHIFT`. -/
structure FpTy where
  storage : IntTy
  bits : Nat
  shift : Int
deriving DecidableEq

/-- Arithmetic shift right of a raw storage value by `n` bits (Rust `>>`):
floor division by `2^n` (which also agrees with the logical shift used for
unsigned raw values, since those are nonnegative). -/
def sshr (x : Int) (n : Nat) : Int := x.fdiv (2 ^ n)

/-- Constant `MIN` of `NumXxx<BITS, SHIFT>` (`num_impl.rs`): `0` when `BITS = 0`,
otherwise the storage `MIN` arithmetically shifted right by `width - BITS`. -/
def FpTy.minRaw (T : FpTy) : Int :=
  if T.bits = 0 then 0 else sshr T.storage.minv (T.storage.width - T.bits)

/-- Constant `MAX` of `NumXxx<BITS, SHIFT>` (`num_impl.rs`): `0` when `BITS = 0`,
otherwise the storage `MAX` arithmetically shifted right by `width - BITS`. -/
def FpTy.maxRaw (T : FpTy) : Int :=
  if T.bits = 0 then 0 else sshr T.storage.maxv (T.storage.width - T.bits)

/-- Whether raw value `x` lies in `[MIN.raw, MAX.raw]` of the fixed-point type. -/
def FpTy.inRange (T : FpTy) (x : Int) : Prop := T.minRaw ≤ x ∧ x ≤ T.maxRaw

instance (T : FpTy) (x : Int) : Decidable (T.inRange x) :=
  inferInstanceAs (Decidable (T.minRaw ≤ x ∧ x ≤ T.maxRaw))

theorem FpTy.inRange_def (T : FpTy) (x : Int) :
    T.inRange x ↔ T.minRaw ≤ x ∧ x ≤ T.maxRaw := Iff.rfl

/-- The static assertion attached to the `BITS` constant of `NumXxx<BITS, SHIFT>`
(`num_impl.rs`): instantiating the type requires `BITS` to fit the storage width. -/
def FpTy.wf (T : FpTy) : Prop := T.bits ≤ T.storage.width

/-- Method `Num::new` from `lib.rs`: checked construction from a raw storage value.
A fixed-point value is modelled by its raw integer. -/
def Num.new (T : FpTy) (val : Int) : Except RangeError Int :=
  if val < T.minRaw then .error .TooSmall
  else if val > T.maxRaw then .error .TooLarge
  else .ok val

deriving instance DecidableEq for Except

/-! Closed forms for the `MIN`/`MAX` raw bounds. -/

theorem two_pow_le {m n : Nat} (h : m ≤ n) : (2 : Int) ^ m ≤ 2 ^ n :=
  pow_le_pow_right₀ (by norm_num) h

theorem minRaw_unsigned (w b : Nat) (sh : Int) :
    FpTy.minRaw ⟨⟨w, false⟩, b, sh⟩ = 0 := by
  by_cases hb0 : b = 0
  · show (if b = 0 then (0 : Int) else _) = 0
    rw [if_pos hb0]
  · show (if b = 0 then (0 : Int) else sshr 0 (w - b)) = 0
    rw [if_neg hb0]
    show (0 : Int).fdiv (2 ^ (w - b)) = 0
    exact Int.zero_fdiv _

theorem maxRaw_unsigned (w b : Nat) (sh : Int) (hb : b ≤ w) :
    FpTy.maxRaw ⟨⟨w, false⟩, b, sh⟩ = 2 ^ b - 1 := by
  by_cases hb0 : b = 0
  · show (if b = 0 then (0 : Int) else _) = 2 ^ b - 1
    rw [if_pos hb0, hb0]
    norm_num
  · have hpow : (0 : Int) < 2 ^ (w - b) := by positivity
    have h2 : (2 : Int) ^ b * 2 ^ (w - b) = 2 ^ w := by
      rw [← pow_add]
      congr 1
      omega
    have hsplit : (2 : Int) ^ w - 1 = (2 ^ (w - b) - 1) + (2 ^ b - 1) * 2 ^ (w - b) := by
      calc (2 : Int) ^ w - 1 = 2 ^ b * 2 ^ (w - b) - 1 := by rw [h2]
        _ = (2 ^ (w - b) - 1) + (2 ^ b - 1) * 2 ^ (w - b) := by ring
    show (if b = 0 then (0 : Int) else sshr (2 ^ w - 1) (w - b)) = 2 ^ b - 1
    rw [if_neg hb0]
    show ((2 : Int) ^ w - 1).fdiv (2 ^ (w - b)) = 2 ^ b - 1
    rw [Int.fdiv_eq_ediv _ (le_of_lt hpow), hsplit,
      Int.add_mul_ediv_right _ _ (ne_of_gt hpow),
      Int.ediv_eq_zero_of_lt (by omega) (by omega), zero_add]

theorem minRaw_signed (w b : Nat) (sh : Int) (hb : b ≤ w) (hb0 : b ≠ 0) :
    FpTy.minRaw ⟨⟨w, true⟩, b, sh⟩ = -(2 ^ (b - 1)) := by
  have hpow : (2 : Int) ^ (w - b) ≠ 0 := by positivity
  have hsplit : -((2 : Int) ^ (w - 1)) = -(2 ^ (b - 1)) * 2 ^ (w - b) := by
    rw [neg_mul, ← pow_add]
    congr 2
    omega
  show (if b = 0 then (0 : Int) else sshr (-(2 ^ (w - 1))) (w - b)) = -(2 ^ (b - 1))
  rw [if_neg hb0]
  show (-((2 : Int) ^ (w - 1))).fdiv (2 ^ (w - b)) = -(2 ^ (b - 1))
  rw [hsplit, Int.mul_fdiv_cancel _ hpow]

theorem maxRaw_signed (w b : Nat) (sh : Int) (hb : b ≤ w) (hb0 : b ≠ 0) :
    FpTy.maxRaw ⟨⟨w, true⟩, b, sh⟩ = 2 ^ (b - 1) - 1 := by
  have hpow : (0 : Int) < 2 ^ (w - b) := by positivity
  have h2 : (2 : Int) ^ (b - 1) * 2 ^ (w - b) = 2 ^ (w - 1) := by
    rw [← pow_add]
    congr 1
    omega
  have hsplit : (2 : Int) ^ (w - 1) - 1
      = (2 ^ (w - b) - 1) + (2 ^ (b - 1) - 1) * 2 ^ (w - b) := by
    calc (2 : Int) ^ (w - 1) - 1 = 2 ^ (b - 1) * 2 ^ (w - b) - 1 := by rw [h2]
      _ = (2 ^ (w - b) - 1) + (2 ^ (b - 1) - 1) * 2 ^ (w - b) := by ring
  show (if b = 0 then (0 : Int) else sshr (2 ^ (w - 1) - 1) (w - b)) = 2 ^ (b - 1) - 1
  rw [if_neg hb0]
  show ((2 : Int) ^ (w - 1) - 1).fdiv (2 ^ (w - b)) = 2 ^ (b - 1) - 1
  rw [Int.fdiv_eq_ediv _ (le_of_lt hpow), hsplit,
    Int.add_mul_ediv_right _ _ (ne_of_gt hpow),
    Int.ediv_eq_zero_of_lt (by omega) (by omega), zero_add]

theorem minRaw_bits0 (T : FpTy) (h : T.bits = 0) : T.minRaw = 0 := by
  unfold FpTy.minRaw
  rw [if_pos h]

theorem maxRaw_bits0 (T : FpTy) (h : T.bits = 0) : T.maxRaw = 0 := by
  unfold FpTy.maxRaw
  rw [if_pos h]

/-- Signed in-range values satisfy the usual two's-complement bounds; in the
degenerate `BITS = 0` case the value is exactly zero. -/
theorem bounds_signed {w b : Nat} {sh : Int} (hb : b ≤ w) {x : Int}
    (hx : FpTy.inRange ⟨⟨w, true⟩, b, sh⟩ x) :
    -((2 : Int) ^ (b - 1)) ≤ x ∧ x ≤ 2 ^ (b - 1) - 1 ∧ (b = 0 → x = 0) := by
  obtain ⟨hlo, hhi⟩ := (FpTy.inRange_def _ _).mp hx
  by_cases hb0 : b = 0
  · rw [minRaw_bits0 _ hb0] at hlo
    rw [maxRaw_bits0 _ hb0] at hhi
    have hx0 : x = 0 := le_antisymm hhi hlo
    subst hx0
    subst hb0
    norm_num
  · rw [minRaw_signed w b sh hb hb0] at hlo
    rw [maxRaw_signed w b sh hb hb0] at hhi
    exact ⟨hlo, hhi, fun h => absurd h hb0⟩

/-- Unsigned in-range values satisfy `0 ≤ x ≤ 2^BITS - 1` (uniformly in `BITS`). -/
theorem bounds_unsigned {w b : Nat} {sh : Int} (hb : b ≤ w) {x : Int}
    (hx : FpTy.inRange ⟨⟨w, false⟩, b, sh⟩ x) :
    0 ≤ x ∧ x ≤ 2 ^ b - 1 := by
  obtain ⟨hlo, hhi⟩ := (FpTy.inRange_def _ _).mp hx
  rw [minRaw_unsigned w b sh] at hlo
  rw [maxRaw_unsigned w b sh hb] at hhi
  exact ⟨hlo, hhi⟩

/-- A value in range for a fixed-point type is in range for its storage type. -/
theorem storage_of_inRange {w : Nat} {s : Bool} {b : Nat} {sh : Int} (hb : b ≤ w) {x : Int}
    (hx : FpTy.inRange ⟨⟨w, s⟩, b, sh⟩ x) : IntTy.inRange ⟨w, s⟩ x := by
  cases s
  · obtain ⟨h0, h1⟩ := bounds_unsigned hb hx
    have hmono : (2 : Int) ^ b ≤ 2 ^ w := two_pow_le hb
    refine ⟨?_, ?_⟩
    · show (0 : Int) ≤ x
      exact h0
    · show x ≤ (2 : Int) ^ w - 1
      omega
  · obtain ⟨h0, h1, _⟩ := bounds_signed hb hx
    have hmono : (2 : Int) ^ (b - 1) ≤ 2 ^ (w - 1) := two_pow_le (by omega)
    refine ⟨?_, ?_⟩
    · show -((2 : Int) ^ (w - 1)) ≤ x
      omega
    · show x ≤ (2 : Int) ^ (w - 1) - 1
      omega

/-- The raw bounds are always ordered: `MIN.raw ≤ MAX.raw` for every type. -/
theorem minRaw_le_maxRaw (T : FpTy) : T.minRaw ≤ T.maxRaw := by
  unfold FpTy.minRaw FpTy.maxRaw
  split
  · exact le_refl 0
  · unfold sshr
    have hpow : (0 : Int) < 2 ^ (T.storage.width - T.bits) := by positivity
    rw [Int.fdiv_eq_ediv _ (le_of_lt hpow), Int.fdiv_eq_ediv _ (le_of_lt hpow)]
    apply Int.ediv_le_ediv hpow
    unfold IntTy.minv IntTy.maxv
    split
    · have h1 : (0 : Int) < 2 ^ (T.storage.width - 1) := by positivity
      omega
    · have h1 : (0 : Int) < 2 ^ T.storage.width := by positivity
      omega

/-- C8: checked construction from a raw storage value returns the value (with raw
equal to the input) exactly when the input lies in `[MIN.raw, MAX.raw]`, returns
`TooSmall` below and `TooLarge` above; `MIN`/`MAX` are the storage bounds
arithmetically shifted right by `width - BITS`, and both are `0` when `BITS = 0`;
concretely, the 4-bit unsigned type has `MAX.raw = 15` and constructing it from
raw value 16 returns `TooLarge`. -/
theorem new_range_check (T : FpTy) (val : Int) :
    (Num.new T val = .error .TooSmall ↔ val < T.minRaw) ∧
    (Num.new T val = .error .TooLarge ↔ T.maxRaw < val) ∧
    (Num.new T val = .ok val ↔ T.inRange val) ∧
    (T.bits = 0 → T.minRaw = 0 ∧ T.maxRaw = 0) ∧
    (T.bits ≠ 0 → T.minRaw = sshr T.storage.minv (T.storage.width - T.bits) ∧
      T.maxRaw = sshr T.storage.maxv (T.storage.width - T.bits)) ∧
    FpTy.maxRaw ⟨⟨8, false⟩, 4, 0⟩ = 15 ∧
    Num.new ⟨⟨8, false⟩, 4, 0⟩ 16 = .error .TooLarge := by
  have hmm := minRaw_le_maxRaw T
  refine ⟨?_, ?_, ?_,
    fun h => ⟨minRaw_bits0 T h, maxRaw_bits0 T h⟩,
    fun h => ⟨by simp [FpTy.minRaw, h], by simp [FpTy.maxRaw, h]⟩,
    by decide, by decide⟩ <;>
  · unfold Num.new
    split_ifs with h1 h2 <;> simp_all [FpTy.inRange_def] <;> omega

/-- Witness for `new_range_check`: constructing the 4-bit unsigned type from raw 16. -/
theorem new_range_check_wit : Num.new ⟨⟨8, false⟩, 4, 0⟩ 16 = .error .TooLarge :=
  (new_range_check ⟨⟨8, false⟩, 4, 0⟩ 16).2.1.mpr (by decide)

instance (T : FpTy) : Decidable T.wf :=
  inferInstanceAs (Decidable (T.bits ≤ T.storage.width))

/-- Const block of `Num::add` (`lib.rs`): the statically checked requirements on
the output type — equal `SHIFT` on all three types and strictly more output `BITS`
than either operand. -/
def Num.addOk (A B C : FpTy) : Prop :=
  C.shift = A.shift ∧ C.shift = B.shift ∧ A.bits < C.bits ∧ B.bits < C.bits

instance (A B C : FpTy) : Decidable (Num.addOk A B C) :=
  inferInstanceAs (Decidable (_ ∧ _ ∧ _ ∧ _))

/-- Body of `Num::add` (`lib.rs`): unchecked native addition of the raw values,
reinterpreted in the output type without any runtime check. -/
def Num.add (t : IntTy) (a b : Int) : Option Int := t.uncheckedAdd a b

/-- C1: for operand types `A`, `B` and output type `C` over the same storage with
equal `SHIFT` and `C.BITS` strictly greater than both operand `BITS`, `add` returns
exactly the mathematical sum of the raw values, which lies within
`[C.MIN.raw, C.MAX.raw]`; the unchecked native addition never overflows
(the model returns `some`, never the overflow value `none`). -/
theorem add_no_overflow (w : Nat) (s : Bool) (bA bB bC : Nat) (shA shB shC : Int)
    (a b : Int)
    (hok : Num.addOk ⟨⟨w, s⟩, bA, shA⟩ ⟨⟨w, s⟩, bB, shB⟩ ⟨⟨w, s⟩, bC, shC⟩)
    (hwf : FpTy.wf ⟨⟨w, s⟩, bC, shC⟩)
    (ha : FpTy.inRange ⟨⟨w, s⟩, bA, shA⟩ a)
    (hb : FpTy.inRange ⟨⟨w, s⟩, bB, shB⟩ b) :
    Num.add ⟨w, s⟩ a b = some (a + b) ∧ FpTy.inRange ⟨⟨w, s⟩, bC, shC⟩ (a + b) := by
  have hAb : bA < bC := hok.2.2.1
  have hBb : bB < bC := hok.2.2.2
  have hw : bC ≤ w := hwf
  have hCrange : FpTy.inRange ⟨⟨w, s⟩, bC, shC⟩ (a + b) := by
    cases s
    · obtain ⟨ha0, ha1⟩ := bounds_unsigned (by omega) ha
      obtain ⟨hb0, hb1⟩ := bounds_unsigned (by omega) hb
      have p1 : (2 : Int) ^ bA ≤ 2 ^ (bC - 1) := two_pow_le (by omega)
      have p2 : (2 : Int) ^ bB ≤ 2 ^ (bC - 1) := two_pow_le (by omega)
      have psum : (2 : Int) ^ (bC - 1) * 2 = 2 ^ bC := by
        rw [← pow_succ]
        congr 1
        omega
      rw [FpTy.inRange_def, minRaw_unsigned, maxRaw_unsigned w bC shC hw]
      omega
    · obtain ⟨ha0, ha1, ha2⟩ := bounds_signed (by omega) ha
      obtain ⟨hb0, hb1, hb2⟩ := bounds_signed (by omega) hb
      have p1 : 1 ≤ bA → (2 : Int) ^ (bA - 1) ≤ 2 ^ (bC - 2) :=
        fun h => two_pow_le (by omega)
      have p2 : 1 ≤ bB → (2 : Int) ^ (bB - 1) ≤ 2 ^ (bC - 2) :=
        fun h => two_pow_le (by omega)
      have psum : 2 ≤ bC → (2 : Int) ^ (bC - 2) * 2 = 2 ^ (bC - 1) := by
        intro h
        rw [← pow_succ]
        congr 1
        omega
      have q1 : (0 : Int) < 2 ^ (bC - 2) := by positivity
      have q2 : (0 : Int) < 2 ^ (bC - 1) := by positivity
      rw [FpTy.inRange_def, minRaw_signed w bC shC hw (by omega),
        maxRaw_signed w bC shC hw (by omega)]
      omega
  have hst : IntTy.inRange ⟨w, s⟩ (a + b) := storage_of_inRange hw hCrange
  refine ⟨?_, hCrange⟩
  unfold Num.add IntTy.uncheckedAdd
  rw [if_pos hst]

/-- Witness for `add_no_overflow`: adding 4-bit signed values 7 and -8 into the
5-bit signed output type. -/
theorem add_no_overflow_wit :
    Num.add ⟨8, true⟩ 7 (-8) = some (7 + -8) ∧
    FpTy.inRange ⟨⟨8, true⟩, 5, 0⟩ (7 + -8) :=
  add_no_overflow 8 true 4 4 5 0 0 0 7 (-8) (by decide) (by decide)
    (by decide) (by decide)

/-- Const block of `Num::sub` (`lib.rs`): the only static requirements are the two
`SHIFT` equalities — there is no `BITS` headroom assertion (unlike `add`). -/
def Num.subOk (A B C : FpTy) : Prop := C.shift = A.shift ∧ C.shift = B.shift

instance (A B C : FpTy) : Decidable (Num.subOk A B C) :=
  inferInstanceAs (Decidable (_ ∧ _))

/-- Body of `Num::sub` (`lib.rs`): both raw values are converted with `as_signed`
to the signed companion storage type, then combined with `unchecked_sub`. -/
def Num.sub (t : IntTy) (a b : Int) : Option Int :=
  t.toSigned.uncheckedSub (t.asSigned a) (t.asSigned b)

/-- C3: contrary to the claim, `Num::sub` statically accepts instantiations with
no extra output headroom — its const block checks only the two `SHIFT` equalities.
With 8-bit signed operands and the 8-bit signed output type (accepted by the
code), the in-range operands 127 and -128 make the unchecked subtraction compute
`127 - (-128) = 255`, which overflows the signed 8-bit storage (`none`, i.e.
undefined behavior), even though the operands are converted with `as_signed`
first exactly as the claim describes. -/
theorem sub_headroom_bug :
    Num.subOk ⟨⟨8, true⟩, 8, 0⟩ ⟨⟨8, true⟩, 8, 0⟩ ⟨⟨8, true⟩, 8, 0⟩ ∧
    FpTy.wf ⟨⟨8, true⟩, 8, 0⟩ ∧
    FpTy.inRange ⟨⟨8, true⟩, 8, 0⟩ 127 ∧
    FpTy.inRange ⟨⟨8, true⟩, 8, 0⟩ (-128) ∧
    Num.sub ⟨8, true⟩ 127 (-128) = none := by decide

/-- Zero is always a representable raw value of a fixed-point type that fits its
storage. -/
theorem zero_inRange (w : Nat) (s : Bool) (b : Nat) (sh : Int) (hb : b ≤ w) :
    FpTy.inRange ⟨⟨w, s⟩, b, sh⟩ 0 := by
  cases s
  · rw [FpTy.inRange_def, minRaw_unsigned, maxRaw_unsigned w b sh hb]
    have h1 : (0 : Int) < 2 ^ b := by positivity
    omega
  · by_cases hb0 : b = 0
    · rw [FpTy.inRange_def, minRaw_bits0 _ hb0, maxRaw_bits0 _ hb0]
      omega
    · rw [FpTy.inRange_def, minRaw_signed w b sh hb hb0, maxRaw_signed w b sh hb hb0]
      have h1 : (0 : Int) < 2 ^ (b - 1) := by positivity
      omega

/-- Output type of the same-storage `Mul::mul` impl (`mul_div.rs`): a type over the
same storage with `BITS0 + BITS1` bits and `SHIFT0 + SHIFT1` shift. -/
def mulOutTy (A B : FpTy) : FpTy := ⟨A.storage, A.bits + B.bits, A.shift + B.shift⟩

/-- Body of `Mul::mul` (`mul_div.rs`): unchecked native multiply of the raw values,
reinterpreted in the output type without any runtime check. -/
def Num.mul (t : IntTy) (a b : Int) : Option Int := t.uncheckedMul a b

/-- C2: multiplying `A(BITS0, SHIFT0)` by `B(BITS1, SHIFT1)` over the same storage
produces the output type `C(BITS0+BITS1, SHIFT0+SHIFT1)`, and for all in-range
operands the result raw value is exactly the mathematical product of the raw
values (no truncation, no overflow) and lies within `[C.MIN.raw, C.MAX.raw]`. -/
theorem mul_exact (w : Nat) (s : Bool) (bA bB : Nat) (shA shB : Int) (a b : Int)
    (hwf : FpTy.wf (mulOutTy ⟨⟨w, s⟩, bA, shA⟩ ⟨⟨w, s⟩, bB, shB⟩))
    (ha : FpTy.inRange ⟨⟨w, s⟩, bA, shA⟩ a)
    (hb : FpTy.inRange ⟨⟨w, s⟩, bB, shB⟩ b) :
    (mulOutTy ⟨⟨w, s⟩, bA, shA⟩ ⟨⟨w, s⟩, bB, shB⟩).bits = bA + bB ∧
    (mulOutTy ⟨⟨w, s⟩, bA, shA⟩ ⟨⟨w, s⟩, bB, shB⟩).shift = shA + shB ∧
    Num.mul ⟨w, s⟩ a b = some (a * b) ∧
    FpTy.inRange (mulOutTy ⟨⟨w, s⟩, bA, shA⟩ ⟨⟨w, s⟩, bB, shB⟩) (a * b) := by
  have hw : bA + bB ≤ w := hwf
  have hrange : FpTy.inRange ⟨⟨w, s⟩, bA + bB, shA + shB⟩ (a * b) := by
    cases s
    · obtain ⟨ha0, ha1⟩ := bounds_unsigned (by omega) ha
      obtain ⟨hb0, hb1⟩ := bounds_unsigned (by omega) hb
      have hpA : (0 : Int) ≤ 2 ^ bA - 1 := by
        have : (0 : Int) < 2 ^ bA := by positivity
        omega
      have hmul : a * b ≤ (2 ^ bA - 1) * (2 ^ bB - 1) :=
        mul_le_mul ha1 hb1 hb0 hpA
      have hexp : (2 : Int) ^ bA * 2 ^ bB = 2 ^ (bA + bB) := (pow_add 2 bA bB).symm
      have hprod : ((2 : Int) ^ bA - 1) * (2 ^ bB - 1)
          = 2 ^ (bA + bB) - 2 ^ bA - 2 ^ bB + 1 := by
        rw [← hexp]
        ring
      rw [hprod] at hmul
      have h1 : (0 : Int) < 2 ^ bA := by positivity
      have h2 : (0 : Int) < 2 ^ bB := by positivity
      rw [FpTy.inRange_def, minRaw_unsigned, maxRaw_unsigned w (bA + bB) (shA + shB) hw]
      exact ⟨mul_nonneg ha0 hb0, by omega⟩
    · obtain ⟨ha0, ha1, ha2⟩ := bounds_signed (by omega) ha
      obtain ⟨hb0, hb1, hb2⟩ := bounds_signed (by omega) hb
      by_cases hbA0 : bA = 0
      · rw [ha2 hbA0, zero_mul]
        exact zero_inRange w true (bA + bB) (shA + shB) hw
      by_cases hbB0 : bB = 0
      · rw [hb2 hbB0, mul_zero]
        exact zero_inRange w true (bA + bB) (shA + shB) hw
      have hA : |a| ≤ 2 ^ (bA - 1) := abs_le.mpr ⟨ha0, by omega⟩
      have hB : |b| ≤ 2 ^ (bB - 1) := abs_le.mpr ⟨hb0, by omega⟩
      have habs : |a * b| ≤ 2 ^ (bA + bB - 2) := by
        rw [abs_mul]
        calc |a| * |b| ≤ 2 ^ (bA - 1) * 2 ^ (bB - 1) :=
              mul_le_mul hA hB (abs_nonneg b) (by positivity)
          _ = 2 ^ (bA + bB - 2) := by
              rw [← pow_add]
              congr 1
              omega
      obtain ⟨hm1, hm2⟩ := abs_le.mp habs
      have psum : (2 : Int) ^ (bA + bB - 2) * 2 = 2 ^ (bA + bB - 1) := by
        rw [← pow_succ]
        congr 1
        omega
      have q1 : (0 : Int) < 2 ^ (bA + bB - 2) := by positivity
      rw [FpTy.inRange_def, minRaw_signed w (bA + bB) (shA + shB) hw (by omega),
        maxRaw_signed w (bA + bB) (shA + shB) hw (by omega)]
      omega
  have hst : IntTy.inRange ⟨w, s⟩ (a * b) := storage_of_inRange hw hrange
  refine ⟨rfl, rfl, ?_, hrange⟩
  unfold Num.mul IntTy.uncheckedMul
  rw [if_pos hst]

/-- Witness for `mul_exact`: 3-bit signed -4 times 4-bit signed 7. -/
theorem mul_exact_wit :
    (mulOutTy ⟨⟨8, true⟩, 3, 1⟩ ⟨⟨8, true⟩, 4, 2⟩).bits = 3 + 4 ∧
    (mulOutTy ⟨⟨8, true⟩, 3, 1⟩ ⟨⟨8, true⟩, 4, 2⟩).shift = 1 + 2 ∧
    Num.mul ⟨8, true⟩ (-4) 7 = some (-4 * 7) ∧
    FpTy.inRange (mulOutTy ⟨⟨8, true⟩, 3, 1⟩ ⟨⟨8, true⟩, 4, 2⟩) (-4 * 7) :=
  mul_exact 8 true 3 4 1 2 (-4) 7 (by decide) (by decide) (by decide)

/-- The quotient of a truncating division is bounded in magnitude by any bound on
the magnitude of the dividend. -/
theorem tdiv_le_bound (b : Int) {a B : Int} (h1 : -B ≤ a) (h2 : a ≤ B) :
    -B ≤ a.tdiv b ∧ a.tdiv b ≤ B := by
  have h3 : (a.tdiv b).natAbs ≤ a.natAbs := by
    rw [Int.natAbs_tdiv]
    exact Nat.div_le_self _ _
  have h4 : |a.tdiv b| ≤ |a| := by
    rw [Int.abs_eq_natAbs, Int.abs_eq_natAbs]
    exact_mod_cast h3
  have h5 : |a| ≤ B := abs_le.mpr ⟨h1, h2⟩
  exact abs_le.mp (le_trans h4 h5)

/-- Output type of the same-storage `Div::div` impl (`mul_div.rs`): a type over
the same storage with `BITS0 + (1 if signed else 0)` bits and `SHIFT0 - SHIFT1`
shift. -/
def divOutTy (A B : FpTy) : FpTy :=
  ⟨A.storage, A.bits + (if A.storage.signed then 1 else 0), A.shift - B.shift⟩

/-- Body of `Div::div` (`mul_div.rs`): Rust native `/` on the raw values (truncating
toward zero, panicking on a zero divisor), reinterpreted in the output type. -/
def Num.div (t : IntTy) (a b : Int) : Option Int := t.rustDiv a b

/-- C4: dividing `A(BITS0, SHIFT0)` by `B(BITS1, SHIFT1)` over the same storage
produces the output type with `BITS0 + (1 if signed else 0)` bits and
`SHIFT0 - SHIFT1` shift; for every in-range dividend and nonzero in-range divisor
the result is exactly the native truncating-toward-zero quotient of the raw values
and lies in the output range; a zero raw divisor is a fatal (panicking) condition,
never a silently wrapped or saturated result. -/
theorem div_truncating (w : Nat) (s : Bool) (bA bB : Nat) (shA shB : Int) (a b : Int)
    (hwf : FpTy.wf (divOutTy ⟨⟨w, s⟩, bA, shA⟩ ⟨⟨w, s⟩, bB, shB⟩))
    (ha : FpTy.inRange ⟨⟨w, s⟩, bA, shA⟩ a)
    (hb : FpTy.inRange ⟨⟨w, s⟩, bB, shB⟩ b) :
    (divOutTy ⟨⟨w, s⟩, bA, shA⟩ ⟨⟨w, s⟩, bB, shB⟩).bits = bA + (if s then 1 else 0) ∧
    (divOutTy ⟨⟨w, s⟩, bA, shA⟩ ⟨⟨w, s⟩, bB, shB⟩).shift = shA - shB ∧
    (b = 0 → Num.div ⟨w, s⟩ a b = none) ∧
    (b ≠ 0 → Num.div ⟨w, s⟩ a b = some (a.tdiv b) ∧
      FpTy.inRange (divOutTy ⟨⟨w, s⟩, bA, shA⟩ ⟨⟨w, s⟩, bB, shB⟩) (a.tdiv b)) := by
  refine ⟨rfl, rfl, ?_, ?_⟩
  · intro h
    unfold Num.div IntTy.rustDiv
    rw [if_pos h]
  · intro hbz
    unfold Num.div IntTy.rustDiv
    rw [if_neg hbz]
    cases s
    · have hw : bA ≤ w := hwf
      obtain ⟨ha0, ha1⟩ := bounds_unsigned hw ha
      have hb0 : (0 : Int) ≤ b := by
        have h := hb.1
        rwa [minRaw_unsigned] at h
      have hq0 : 0 ≤ a.tdiv b := Int.tdiv_nonneg ha0 hb0
      have h1 : (0 : Int) < 2 ^ bA := by positivity
      have hqb := tdiv_le_bound b (B := 2 ^ bA - 1) (by omega) ha1
      have hrange : FpTy.inRange ⟨⟨w, false⟩, bA, shA - shB⟩ (a.tdiv b) := by
        rw [FpTy.inRange_def, minRaw_unsigned, maxRaw_unsigned w bA (shA - shB) hw]
        exact ⟨hq0, hqb.2⟩
      have hst : IntTy.inRange ⟨w, false⟩ (a.tdiv b) := storage_of_inRange hw hrange
      rw [if_pos hst]
      exact ⟨rfl, hrange⟩
    · have hw : bA + 1 ≤ w := hwf
      obtain ⟨ha0, ha1, ha2⟩ := bounds_signed (by omega) ha
      have hrange : FpTy.inRange ⟨⟨w, true⟩, bA + 1, shA - shB⟩ (a.tdiv b) := by
        by_cases hbA0 : bA = 0
        · rw [ha2 hbA0, Int.zero_tdiv]
          exact zero_inRange w true (bA + 1) (shA - shB) hw
        · have hqb := tdiv_le_bound b (B := (2 : Int) ^ (bA - 1)) ha0 (by omega)
          have psum : (2 : Int) ^ (bA - 1) * 2 = 2 ^ bA := by
            rw [← pow_succ]
            congr 1
            omega
          have q1 : (0 : Int) < 2 ^ (bA - 1) := by positivity
          have hpe : (2 : Int) ^ (bA + 1 - 1) = 2 ^ bA := rfl
          rw [FpTy.inRange_def, minRaw_signed w (bA + 1) (shA - shB) hw (by omega),
            maxRaw_signed w (bA + 1) (shA - shB) hw (by omega)]
          omega
      have hst : IntTy.inRange ⟨w, true⟩ (a.tdiv b) :=
        storage_of_inRange hw hrange
      rw [if_pos hst]
      exact ⟨rfl, hrange⟩

/-- Witness for `div_truncating`: 4-bit signed -8 divided by 4-bit signed 3. -/
theorem div_truncating_wit :
    Num.div ⟨8, true⟩ (-8) 3 = some ((-8 : Int).tdiv 3) ∧
    FpTy.inRange (divOutTy ⟨⟨8, true⟩, 4, 0⟩ ⟨⟨8, true⟩, 4, 0⟩) ((-8 : Int).tdiv 3) :=
  (div_truncating 8 true 4 4 0 0 (-8) 3 (by decide) (by decide) (by decide)).2.2.2
    (by decide)

/-- Output type of the signed-divided-by-unsigned `Div` impl (`mul_div.rs`): the
signed family with `B0` bits (no extra bit) and `S0 - S1` shift. -/
def divOutTySU (A B : FpTy) : FpTy :=
  ⟨⟨A.storage.width, true⟩, A.bits, A.shift - B.shift⟩

/-- Output type of the unsigned-divided-by-signed `Div` impl (`mul_div.rs`): the
signed family with `B0 + 1` bits and `S0 - S1` shift. -/
def divOutTyUS (A B : FpTy) : FpTy :=
  ⟨⟨A.storage.width, true⟩, A.bits + 1, A.shift - B.shift⟩

/-- Body of the signed-divided-by-unsigned `Div::div` (`mul_div.rs`): the unsigned
divisor's raw value is cast with `as` into the signed storage type (a wrapping
cast), then divided with native `/`. -/
def Num.divSU (w : Nat) (a b : Int) : Option Int :=
  IntTy.rustDiv ⟨w, true⟩ a (IntTy.asSigned ⟨w, false⟩ b)

/-- Body of the unsigned-divided-by-signed `Div::div` (`mul_div.rs`): the unsigned
dividend's raw value is cast with `as` into the signed storage type, then divided
with native `/`. -/
def Num.divUS (w : Nat) (a b : Int) : Option Int :=
  IntTy.rustDiv ⟨w, true⟩ (IntTy.asSigned ⟨w, false⟩ a) b

/-- C5 counterexample: for `I8<4,0> / U8<8,0>` (statically accepted), the in-range
operands raw -8 and raw 255 with nonzero divisor produce raw 8 — the wrapping cast
turns the divisor 255 into -1 — which is not the truncated quotient of the
operands' values (0) and lies outside the result type `I8<4,0>`'s raw range. -/
theorem mixed_div_counterexample :
    FpTy.wf ⟨⟨8, true⟩, 4, 0⟩ ∧ FpTy.wf ⟨⟨8, false⟩, 8, 0⟩ ∧
    FpTy.inRange ⟨⟨8, true⟩, 4, 0⟩ (-8) ∧
    FpTy.inRange ⟨⟨8, false⟩, 8, 0⟩ 255 ∧
    (255 : Int) ≠ 0 ∧
    Num.divSU 8 (-8) 255 = some 8 ∧
    ¬ FpTy.inRange (divOutTySU ⟨⟨8, true⟩, 4, 0⟩ ⟨⟨8, false⟩, 8, 0⟩) 8 ∧
    (8 : Int) ≠ (-8 : Int).tdiv 255 := by decide

/-- The Rust cast of an unsigned raw value to the signed type of the same width is
value-preserving whenever the value is below `2^(width-1)`. -/
theorem asSigned_id (w : Nat) (hw : 0 < w) {x : Int} (h0 : 0 ≤ x)
    (h1 : x < 2 ^ (w - 1)) :
    IntTy.asSigned ⟨w, false⟩ x = x := by
  have psum : (2 : Int) ^ (w - 1) * 2 = 2 ^ w := by
    rw [← pow_succ]
    congr 1
    omega
  show (x + 2 ^ (w - 1)) % 2 ^ w - 2 ^ (w - 1) = x
  rw [Int.emod_eq_of_lt (by omega) (by omega)]
  omega

/-- C5 (amended): mixed signed/unsigned division promotes the unsigned operand's
raw value into the signed storage type and produces a result in the signed family
with the stated bit counts, and — provided the unsigned operand's `BITS` is
strictly below the storage width, so that the wrapping cast is value-preserving
(on the unsigned-divided-by-signed path this is already forced by the static
`BITS0 + 1 ≤ width` requirement) — for every in-range dividend and in-range
divisor with nonzero raw value the result equals the truncating quotient of the
raw values and lies within the result type's raw range. -/
theorem mixed_div_safe (w bA bB : Nat) (shA shB : Int) (a b : Int) (hw : 0 < w) :
    (bA ≤ w → bB < w →
      FpTy.inRange ⟨⟨w, true⟩, bA, shA⟩ a → FpTy.inRange ⟨⟨w, false⟩, bB, shB⟩ b →
      b ≠ 0 →
      Num.divSU w a b = some (a.tdiv b) ∧
      FpTy.inRange (divOutTySU ⟨⟨w, true⟩, bA, shA⟩ ⟨⟨w, false⟩, bB, shB⟩) (a.tdiv b)) ∧
    (bA + 1 ≤ w → bB ≤ w →
      FpTy.inRange ⟨⟨w, false⟩, bA, shA⟩ a → FpTy.inRange ⟨⟨w, true⟩, bB, shB⟩ b →
      b ≠ 0 →
      Num.divUS w a b = some (a.tdiv b) ∧
      FpTy.inRange (divOutTyUS ⟨⟨w, false⟩, bA, shA⟩ ⟨⟨w, true⟩, bB, shB⟩) (a.tdiv b)) := by
  constructor
  · intro hbA hbB ha hb hbz
    obtain ⟨hb0, hb1⟩ := bounds_unsigned (le_of_lt hbB) hb
    have hlt : b < 2 ^ (w - 1) := by
      have h2 : (2 : Int) ^ bB ≤ 2 ^ (w - 1) := two_pow_le (by omega)
      omega
    have hcast : IntTy.asSigned ⟨w, false⟩ b = b := asSigned_id w hw hb0 hlt
    obtain ⟨ha0, ha1, ha2⟩ := bounds_signed hbA ha
    have hrange : FpTy.inRange ⟨⟨w, true⟩, bA, shA - shB⟩ (a.tdiv b) := by
      by_cases hbA0 : bA = 0
      · rw [ha2 hbA0, Int.zero_tdiv]
        exact zero_inRange w true bA (shA - shB) hbA
      · have q1 : (0 : Int) < 2 ^ (bA - 1) := by positivity
        rw [FpTy.inRange_def, minRaw_signed w bA (shA - shB) hbA hbA0,
          maxRaw_signed w bA (shA - shB) hbA hbA0]
        rcases le_or_lt 0 a with hpos | hneg
        · have hqa := tdiv_le_bound b (a := a) (B := a) (by omega) (le_refl a)
          omega
        · have hq0 : 0 ≤ (-a).tdiv b := Int.tdiv_nonneg (by omega) (by omega)
          rw [Int.neg_tdiv] at hq0
          have hqb := tdiv_le_bound b (B := (2 : Int) ^ (bA - 1)) ha0 (by omega)
          omega
    have hst := storage_of_inRange hbA hrange
    unfold Num.divSU IntTy.rustDiv
    rw [hcast, if_neg hbz, if_pos hst]
    exact ⟨rfl, hrange⟩
  · intro hbA1 hbB ha hb hbz
    obtain ⟨ha0, ha1⟩ := bounds_unsigned (by omega) ha
    have hlt : a < 2 ^ (w - 1) := by
      have h2 : (2 : Int) ^ bA ≤ 2 ^ (w - 1) := two_pow_le (by omega)
      omega
    have hcast : IntTy.asSigned ⟨w, false⟩ a = a := asSigned_id w hw ha0 hlt
    have q1 : (0 : Int) < 2 ^ bA := by positivity
    have hqb := tdiv_le_bound b (B := (2 : Int) ^ bA - 1) (by omega) ha1
    have hrange : FpTy.inRange ⟨⟨w, true⟩, bA + 1, shA - shB⟩ (a.tdiv b) := by
      have hpe : (2 : Int) ^ (bA + 1 - 1) = 2 ^ bA := rfl
      rw [FpTy.inRange_def, minRaw_signed w (bA + 1) (shA - shB) hbA1 (by omega),
        maxRaw_signed w (bA + 1) (shA - shB) hbA1 (by omega)]
      omega
    have hst := storage_of_inRange hbA1 hrange
    unfold Num.divUS IntTy.rustDiv
    rw [hcast, if_neg hbz, if_pos hst]
    exact ⟨rfl, hrange⟩

/-- Witness for `mixed_div_safe`: `I8<4,0> / U8<4,0>` at -8 / 15, and
`U8<4,0> / I8<4,0>` at 15 / -1. -/
theorem mixed_div_safe_wit :
    (Num.divSU 8 (-8) 15 = some ((-8 : Int).tdiv 15) ∧
      FpTy.inRange (divOutTySU ⟨⟨8, true⟩, 4, 0⟩ ⟨⟨8, false⟩, 4, 0⟩)
        ((-8 : Int).tdiv 15)) ∧
    (Num.divUS 8 15 (-1) = some ((15 : Int).tdiv (-1)) ∧
      FpTy.inRange (divOutTyUS ⟨⟨8, false⟩, 4, 0⟩ ⟨⟨8, true⟩, 4, 0⟩)
        ((15 : Int).tdiv (-1))) :=
  ⟨(mixed_div_safe 8 4 4 0 0 (-8) 15 (by decide)).1 (by decide) (by decide)
      (by decide) (by decide) (by decide),
    (mixed_div_safe 8 4 4 0 0 15 (-1) (by decide)).2 (by decide) (by decide)
      (by decide) (by decide) (by decide)⟩

/-- Reduction of an integer to a representable value of the storage type by
discarding high bits (two's-complement wrap-around); this models what the Rust
shift `<<` does to bits pushed beyond the storage width. -/
def IntTy.wrap (t : IntTy) (x : Int) : Int :=
  if t.signed then (x + 2 ^ (t.width - 1)) % 2 ^ t.width - 2 ^ (t.width - 1)
  else x % 2 ^ t.width

/-- The Rust cast `as u32` of an integer expression: reduction modulo `2^32`. -/
def u32cast (x : Int) : Int := x % 2 ^ 32

/-- Const block of `Num::raw_shl` (`lib.rs`): the `u32` difference
`T::BITS - Self::BITS` must not underflow (underflow is a const-eval failure) and
must be at least `N`, and `(T::SHIFT - Self::SHIFT) as u32` must equal `N`. -/
def Num.rawShlOk (S T : FpTy) (N : Nat) : Prop :=
  S.bits ≤ T.bits ∧ N ≤ T.bits - S.bits ∧ u32cast (T.shift - S.shift) = N

instance (S T : FpTy) (N : Nat) : Decidable (Num.rawShlOk S T N) :=
  inferInstanceAs (Decidable (_ ∧ _ ∧ _))

/-- Const block of `Num::raw_shr` (`lib.rs`): the `u32` difference
`Self::BITS - T::BITS` must not underflow and must be at most `N`, and
`(Self::SHIFT - T::SHIFT) as u32` must equal `N`. -/
def Num.rawShrOk (S T : FpTy) (N : Nat) : Prop :=
  T.bits ≤ S.bits ∧ S.bits - T.bits ≤ N ∧ u32cast (S.shift - T.shift) = N

instance (S T : FpTy) (N : Nat) : Decidable (Num.rawShrOk S T N) :=
  inferInstanceAs (Decidable (_ ∧ _ ∧ _))

/-- Body of `Num::raw_shl` (`lib.rs`): the raw value shifted left by `N` in the
storage type.  A shift amount of at least the storage width is an arithmetic
overflow of the native `<<` (a panic in debug builds, a masked amount in release
builds), modelled as `none`; otherwise bits pushed beyond the storage width are
discarded. -/
def Num.rawShl (t : IntTy) (N : Nat) (x : Int) : Option Int :=
  if N < t.width then some (t.wrap (x * 2 ^ N)) else none

/-- Body of `Num::raw_shr` (`lib.rs`): arithmetic right shift of the raw value
by `N`, with the same amount bound as the native `>>`: `none` models the
overflow panic when `N` is at least the storage width. -/
def Num.rawShr (t : IntTy) (N : Nat) (x : Int) : Option Int :=
  if N < t.width then some (sshr x N) else none

/-- Logical value of a fixed-point number: the raw value divided by `2^SHIFT`
(`lib.rs` doc of the `Num` trait), as an exact rational. -/
def FpTy.logical (T : FpTy) (x : Int) : ℚ := (x : ℚ) / 2 ^ T.shift

/-- C9 counterexample, refuting the claim at three concrete instantiations the
const blocks accept.  First, `raw_shl` accepts a destination whose `BITS` exceed
the source's by more than `N` (source `BITS = 3`, destination `BITS = 5`,
`N = 1`), refuting "the destination dimensions must be exactly `N` apart".
Second, `raw_shr` accepts a shift amount of at least the storage width
(`I8<8,0>` to `I8<8,-10>` with `N = 10`), where the native `>>` is an arithmetic
overflow (a debug panic or a masked amount), not a plain shift by `N`.  Third,
`raw_shr` accepts a zero-bit signed destination (`I8<1,0>` to `I8<0,-1>` with
`N = 1`), where shifting the in-range raw value -1 produces -1, outside the
destination's raw range. -/
theorem raw_shift_exact_counterexample :
    (Num.rawShlOk ⟨⟨8, true⟩, 3, 0⟩ ⟨⟨8, true⟩, 5, 1⟩ 1 ∧
      (⟨⟨8, true⟩, 5, 1⟩ : FpTy).bits ≠ (⟨⟨8, true⟩, 3, 0⟩ : FpTy).bits + 1) ∧
    (Num.rawShrOk ⟨⟨8, true⟩, 8, 0⟩ ⟨⟨8, true⟩, 8, -10⟩ 10 ∧
      FpTy.inRange ⟨⟨8, true⟩, 8, 0⟩ 64 ∧
      Num.rawShr ⟨8, true⟩ 10 64 = none) ∧
    (Num.rawShrOk ⟨⟨8, true⟩, 1, 0⟩ ⟨⟨8, true⟩, 0, -1⟩ 1 ∧
      FpTy.inRange ⟨⟨8, true⟩, 1, 0⟩ (-1) ∧
      Num.rawShr ⟨8, true⟩ 1 (-1) = some (sshr (-1) 1) ∧
      ¬ FpTy.inRange ⟨⟨8, true⟩, 0, -1⟩ (sshr (-1) 1)) := by
  decide

/-- Wrap-around is the identity on representable values of the storage type. -/
theorem wrap_id (w : Nat) (s : Bool) (hw : 0 < w) {y : Int}
    (hy : IntTy.inRange ⟨w, s⟩ y) : IntTy.wrap ⟨w, s⟩ y = y := by
  cases s
  · have h1 : (0 : Int) ≤ y := hy.1
    have h2 : y ≤ (2 : Int) ^ w - 1 := hy.2
    show y % 2 ^ w = y
    exact Int.emod_eq_of_lt h1 (by omega)
  · have h1 : -((2 : Int) ^ (w - 1)) ≤ y := hy.1
    have h2 : y ≤ (2 : Int) ^ (w - 1) - 1 := hy.2
    have psum : (2 : Int) ^ (w - 1) * 2 = 2 ^ w := by
      rw [← pow_succ]
      congr 1
      omega
    show (y + 2 ^ (w - 1)) % 2 ^ w - 2 ^ (w - 1) = y
    rw [Int.emod_eq_of_lt (by omega) (by omega)]
    omega

/-- Floor division of `2^m - 1` by `2^n` yields `2^(m-n) - 1` (with truncating
`Nat` subtraction in the exponent). -/
theorem ediv_pow_max (m n : Nat) : ((2 : Int) ^ m - 1) / 2 ^ n = 2 ^ (m - n) - 1 := by
  have hpow : (0 : Int) < 2 ^ n := by positivity
  by_cases h : n ≤ m
  · have h2 : (2 : Int) ^ (m - n) * 2 ^ n = 2 ^ m := by
      rw [← pow_add]
      congr 1
      omega
    have hsplit : (2 : Int) ^ m - 1 = (2 ^ n - 1) + (2 ^ (m - n) - 1) * 2 ^ n := by
      calc (2 : Int) ^ m - 1 = 2 ^ (m - n) * 2 ^ n - 1 := by rw [h2]
        _ = (2 ^ n - 1) + (2 ^ (m - n) - 1) * 2 ^ n := by ring
    rw [hsplit, Int.add_mul_ediv_right _ _ (ne_of_gt hpow),
      Int.ediv_eq_zero_of_lt (by omega) (by omega), zero_add]
  · have h0 : m - n = 0 := by omega
    have hmono : (2 : Int) ^ m ≤ 2 ^ n := two_pow_le (by omega)
    have hm : (0 : Int) < 2 ^ m := by positivity
    rw [h0, Int.ediv_eq_zero_of_lt (by omega) (by omega)]
    norm_num

/-- Floor division of `-(2^m)` by `2^n` yields `-(2^(m-n))` (with truncating
`Nat` subtraction in the exponent). -/
theorem ediv_pow_min (m n : Nat) : (-((2 : Int) ^ m)) / 2 ^ n = -(2 ^ (m - n)) := by
  have hpow : (0 : Int) < 2 ^ n := by positivity
  by_cases h : n ≤ m
  · have h2 : -((2 : Int) ^ m) = -(2 ^ (m - n)) * 2 ^ n := by
      rw [neg_mul, ← pow_add]
      congr 2
      omega
    rw [h2, Int.mul_ediv_cancel _ (ne_of_gt hpow)]
  · have h0 : m - n = 0 := by omega
    have hmono : (2 : Int) ^ m ≤ 2 ^ n := two_pow_le (by omega)
    have hm : (0 : Int) < 2 ^ m := by positivity
    have hsplit : -((2 : Int) ^ m) = (2 ^ n - 2 ^ m) + (-1) * 2 ^ n := by ring
    rw [hsplit, Int.add_mul_ediv_right _ _ (ne_of_gt hpow),
      Int.ediv_eq_zero_of_lt (by omega) (by omega), h0]
    norm_num

/-- C9 (amended): `raw_shl` physically shifts the raw value left by `N`; the
destination `SHIFT` must exceed the source's by exactly `N`, but the destination
`BITS` need only be at least `N` more than the source's (larger destinations are
statically accepted too); when the shift amount is below the storage width (the
native `<<` overflows otherwise), no bits are lost on in-range inputs and the
logical value is unchanged.  `raw_shr` arithmetically shifts the raw value right
by `N`; the destination `SHIFT` must be exactly `N` below the source's, while
the destination `BITS` may be anywhere between `BITS - N` and `BITS`; when the
shift amount is below the storage width and a signed destination keeps at least
one bit (both limits exhibited by the counterexample), the result is the source
raw with its `N` low bits truncated away, in range for the destination, and its
logical value equals that of the source raw with the `N` low bits cleared. -/
theorem raw_shift_semantics (w : Nat) (s : Bool) (bS bT : Nat) (shS shT : Int)
    (N : Nat) (x : Int) (hw : 0 < w) (hNR : (N : Int) < 2 ^ 31) :
    (Num.rawShlOk ⟨⟨w, s⟩, bS, shS⟩ ⟨⟨w, s⟩, bT, shT⟩ N →
      N < w →
      -(2 ^ 31) ≤ shT - shS → shT - shS < 2 ^ 31 →
      FpTy.wf ⟨⟨w, s⟩, bT, shT⟩ →
      FpTy.inRange ⟨⟨w, s⟩, bS, shS⟩ x →
      shT = shS + N ∧ bS + N ≤ bT ∧
      Num.rawShl ⟨w, s⟩ N x = some (x * 2 ^ N) ∧
      FpTy.inRange ⟨⟨w, s⟩, bT, shT⟩ (x * 2 ^ N) ∧
      FpTy.logical ⟨⟨w, s⟩, bT, shT⟩ (x * 2 ^ N) = FpTy.logical ⟨⟨w, s⟩, bS, shS⟩ x) ∧
    (Num.rawShrOk ⟨⟨w, s⟩, bS, shS⟩ ⟨⟨w, s⟩, bT, shT⟩ N →
      N < w →
      -(2 ^ 31) ≤ shS - shT → shS - shT < 2 ^ 31 →
      FpTy.wf ⟨⟨w, s⟩, bS, shS⟩ →
      (s = true → 1 ≤ bT) →
      FpTy.inRange ⟨⟨w, s⟩, bS, shS⟩ x →
      shT = shS - N ∧ bS - N ≤ bT ∧ bT ≤ bS ∧
      Num.rawShr ⟨w, s⟩ N x = some (x / 2 ^ N) ∧
      FpTy.inRange ⟨⟨w, s⟩, bT, shT⟩ (x / 2 ^ N) ∧
      FpTy.logical ⟨⟨w, s⟩, bT, shT⟩ (x / 2 ^ N)
        = FpTy.logical ⟨⟨w, s⟩, bS, shS⟩ (x - x % 2 ^ N)) := by
  have hq2 : (0 : ℚ) < 2 := by norm_num
  have hzq : ∀ k : Int, (2 : ℚ) ^ k ≠ 0 := fun k => zpow_ne_zero k (by norm_num)
  constructor
  · intro hok hNw hlo hhi hwfT hx
    have h1 : bS ≤ bT := hok.1
    have h2 : N ≤ bT - bS := hok.2.1
    have hcast : u32cast (shT - shS) = N := hok.2.2
    have hsh : shT - shS = N := by
      unfold u32cast at hcast
      omega
    have hbt : bS + N ≤ bT := by omega
    have hwT : bT ≤ w := hwfT
    have hp2 : (0 : Int) < 2 ^ N := by positivity
    have hrange : FpTy.inRange ⟨⟨w, s⟩, bT, shT⟩ (x * 2 ^ N) := by
      cases s
      · obtain ⟨hx0, hx1⟩ := bounds_unsigned (by omega) hx
        have hmul : x * 2 ^ N ≤ (2 ^ bS - 1) * 2 ^ N :=
          mul_le_mul_of_nonneg_right hx1 (le_of_lt hp2)
        have hexp : ((2 : Int) ^ bS - 1) * 2 ^ N = 2 ^ (bS + N) - 2 ^ N := by
          rw [sub_mul, one_mul, ← pow_add]
        rw [hexp] at hmul
        have hmono : (2 : Int) ^ (bS + N) ≤ 2 ^ bT := two_pow_le hbt
        rw [FpTy.inRange_def, minRaw_unsigned, maxRaw_unsigned w bT shT hwT]
        exact ⟨mul_nonneg hx0 (by positivity), by omega⟩
      · obtain ⟨hx0, hx1, hx2⟩ := bounds_signed (by omega) hx
        by_cases hbS0 : bS = 0
        · rw [hx2 hbS0, zero_mul]
          exact zero_inRange w true bT shT hwT
        · have hbT0 : bT ≠ 0 := by omega
          have hl : -((2 : Int) ^ (bS - 1)) * 2 ^ N ≤ x * 2 ^ N :=
            mul_le_mul_of_nonneg_right hx0 (le_of_lt hp2)
          have hu : x * 2 ^ N ≤ ((2 : Int) ^ (bS - 1) - 1) * 2 ^ N :=
            mul_le_mul_of_nonneg_right hx1 (le_of_lt hp2)
          have he1 : -((2 : Int) ^ (bS - 1)) * 2 ^ N = -(2 ^ (bS - 1 + N)) := by
            rw [neg_mul, ← pow_add]
          have he2 : ((2 : Int) ^ (bS - 1) - 1) * 2 ^ N = 2 ^ (bS - 1 + N) - 2 ^ N := by
            rw [sub_mul, one_mul, ← pow_add]
          rw [he1] at hl
          rw [he2] at hu
          have hmono : (2 : Int) ^ (bS - 1 + N) ≤ 2 ^ (bT - 1) := two_pow_le (by omega)
          rw [FpTy.inRange_def, minRaw_signed w bT shT hwT hbT0,
            maxRaw_signed w bT shT hwT hbT0]
          omega
    have hst := storage_of_inRange hwT hrange
    have heq : Num.rawShl ⟨w, s⟩ N x = some (x * 2 ^ N) := by
      show (if N < w then some (IntTy.wrap ⟨w, s⟩ (x * 2 ^ N)) else none)
        = some (x * 2 ^ N)
      rw [if_pos hNw, wrap_id w s hw hst]
    refine ⟨by omega, hbt, heq, hrange, ?_⟩
    unfold FpTy.logical
    have hshT : shT = shS + (N : Int) := by omega
    rw [hshT, zpow_add₀ (by norm_num : (2 : ℚ) ≠ 0) shS (N : Int), zpow_natCast]
    push_cast
    rw [mul_div_mul_right _ _ (by positivity : (2 : ℚ) ^ N ≠ 0)]
  · intro hok hNw hlo hhi hwfS hbTs hx
    have h1 : bT ≤ bS := hok.1
    have h2 : bS - bT ≤ N := hok.2.1
    have hcast : u32cast (shS - shT) = N := hok.2.2
    have hsh : shS - shT = N := by
      unfold u32cast at hcast
      omega
    have hwS : bS ≤ w := hwfS
    have hwT : bT ≤ w := by omega
    have hp2 : (0 : Int) < 2 ^ N := by positivity
    have hrange : FpTy.inRange ⟨⟨w, s⟩, bT, shT⟩ (x / 2 ^ N) := by
      cases s
      · obtain ⟨hx0, hx1⟩ := bounds_unsigned hwS hx
        have hqu : x / 2 ^ N ≤ ((2 : Int) ^ bS - 1) / 2 ^ N := Int.ediv_le_ediv hp2 hx1
        rw [ediv_pow_max bS N] at hqu
        have hmono : (2 : Int) ^ (bS - N) ≤ 2 ^ bT := two_pow_le (by omega)
        rw [FpTy.inRange_def, minRaw_unsigned, maxRaw_unsigned w bT shT hwT]
        exact ⟨Int.ediv_nonneg hx0 (le_of_lt hp2), by omega⟩
      · obtain ⟨hx0, hx1, hx2⟩ := bounds_signed hwS hx
        have hbT1 : 1 ≤ bT := hbTs rfl
        have hql : (-((2 : Int) ^ (bS - 1))) / 2 ^ N ≤ x / 2 ^ N :=
          Int.ediv_le_ediv hp2 hx0
        have hqu : x / 2 ^ N ≤ ((2 : Int) ^ (bS - 1) - 1) / 2 ^ N :=
          Int.ediv_le_ediv hp2 hx1
        rw [ediv_pow_min (bS - 1) N] at hql
        rw [ediv_pow_max (bS - 1) N] at hqu
        have hmono : (2 : Int) ^ (bS - 1 - N) ≤ 2 ^ (bT - 1) := two_pow_le (by omega)
        rw [FpTy.inRange_def, minRaw_signed w bT shT hwT (by omega),
          maxRaw_signed w bT shT hwT (by omega)]
        omega
    have heqr : Num.rawShr ⟨w, s⟩ N x = some (x / 2 ^ N) := by
      show (if N < w then some (sshr x N) else none) = some (x / 2 ^ N)
      rw [if_pos hNw]
      unfold sshr
      rw [Int.fdiv_eq_ediv x (le_of_lt hp2)]
    refine ⟨by omega, by omega, h1, heqr, hrange, ?_⟩
    unfold FpTy.logical
    have hdecomp := Int.emod_add_ediv x (2 ^ N)
    have hkey : x - x % 2 ^ N = 2 ^ N * (x / 2 ^ N) := by linarith
    have hshS : shS = shT + (N : Int) := by omega
    have hcast2 : ((x - x % 2 ^ N : ℤ) : ℚ) = ((x / 2 ^ N : ℤ) : ℚ) * 2 ^ N := by
      rw [hkey]
      push_cast
      ring
    rw [hcast2, hshS, zpow_add₀ (by norm_num : (2 : ℚ) ≠ 0) shT (N : Int), zpow_natCast,
      mul_div_mul_right _ _ (by positivity : (2 : ℚ) ^ N ≠ 0)]

/-- Witness for `raw_shift_semantics`: shifting 3-bit signed -4 left by 1 into a
4-bit type, and 4-bit signed -5 right by 1 into a 3-bit type. -/
theorem raw_shift_semantics_wit :
    Num.rawShl ⟨8, true⟩ 1 (-4) = some (-4 * 2 ^ 1) ∧
    FpTy.inRange ⟨⟨8, true⟩, 4, 1⟩ (-4 * 2 ^ 1) ∧
    Num.rawShr ⟨8, true⟩ 1 (-5) = some ((-5 : Int) / 2 ^ 1) ∧
    FpTy.inRange ⟨⟨8, true⟩, 3, 0⟩ ((-5 : Int) / 2 ^ 1) :=
  have h1 := (raw_shift_semantics 8 true 3 4 0 1 1 (-4) (by decide) (by decide)).1
    (by decide) (by decide) (by decide) (by decide) (by decide) (by decide)
  have h2 := (raw_shift_semantics 8 true 4 3 1 0 1 (-5) (by decide) (by decide)).2
    (by decide) (by decide) (by decide) (by decide) (by decide) (fun _ => by decide)
    (by decide)
  ⟨h1.2.2.1, h1.2.2.2.1, h2.2.2.2.1, h2.2.2.2.2.1⟩

/-!
Exact model of the floating-point bridge.  Floats are modelled as exact
rationals: under the representability preconditions asserted by `into_f64` /
`into_f32` (mantissa width, underflow bound, exponent bound) every float value
produced — the scale factor (even subnormal), the cast of the raw integer, and
their product — is exactly representable in the target format, so no rounding
occurs and the rational semantics agrees with IEEE semantics.
-/

/-- Value denoted by the f64 bit pattern constructed by `f64_lsb` (`num_impl.rs`):
with `exp = 2 - f64::MIN_EXP - SHIFT = 1023 - SHIFT`, a positive `exp` builds the
normal float `exp << 52` with value `2^(exp - 1023)`, otherwise the subnormal bit
`1 << (53 + exp - 2)` with value `2^(53 + exp - 2) * 2^(-1074)`.  (As in the
source, the result is garbage when `SHIFT` is outside the constructible range.) -/
def f64Lsb (shift : Int) : ℚ :=
  if 0 < 2 - (-1021) - shift then (2 : ℚ) ^ (2 - (-1021) - shift - 1023)
  else (2 : ℚ) ^ (53 + (2 - (-1021) - shift) - 2).toNat * 2 ^ (-1074 : Int)

/-- Value denoted by the f32 bit pattern constructed by `f32_lsb` (`num_impl.rs`):
with `exp = 2 - f32::MIN_EXP - SHIFT = 127 - SHIFT`, a positive `exp` builds the
normal float `exp << 23` with value `2^(exp - 127)`, otherwise the subnormal bit
`1 << (24 + exp - 2)` with value `2^(24 + exp - 2) * 2^(-149)`. -/
def f32Lsb (shift : Int) : ℚ :=
  if 0 < 2 - (-125) - shift then (2 : ℚ) ^ (2 - (-125) - shift - 127)
  else (2 : ℚ) ^ (24 + (2 - (-125) - shift) - 2).toNat * 2 ^ (-149 : Int)

/-- For every `SHIFT ≤ 1074` (the underflow bound asserted by `into_f64`), the
constructed scale factor is exactly `2^(-SHIFT)`, in both the normal and the
subnormal branch. -/
theorem f64Lsb_eq (shift : Int) (h : shift ≤ 1074) : f64Lsb shift = 2 ^ (-shift) := by
  unfold f64Lsb
  split
  · congr 1
    ring
  · have h2 : (((53 + (2 - (-1021) - shift) - 2).toNat : Int)) = 1074 - shift := by
      rw [Int.toNat_of_nonneg (by omega)]
      ring
    rw [← zpow_natCast (2 : ℚ), h2, ← zpow_add₀ (by norm_num : (2 : ℚ) ≠ 0)]
    congr 1
    ring

/-- For every `SHIFT ≤ 149` (the underflow bound asserted by `into_f32`), the
constructed scale factor is exactly `2^(-SHIFT)`. -/
theorem f32Lsb_eq (shift : Int) (h : shift ≤ 149) : f32Lsb shift = 2 ^ (-shift) := by
  unfold f32Lsb
  split
  · congr 1
    ring
  · have h2 : (((24 + (2 - (-125) - shift) - 2).toNat : Int)) = 149 - shift := by
      rw [Int.toNat_of_nonneg (by omega)]
      ring
    rw [← zpow_natCast (2 : ℚ), h2, ← zpow_add₀ (by norm_num : (2 : ℚ) ≠ 0)]
    congr 1
    ring

/-- Method `into_f64` of the fixed-point struct types (`num_impl.rs`): asserts
(`none` models the panic) that `BITS ≤ 53` (f64 mantissa width), `SHIFT ≤ 1074`
(`53 - f64::MIN_EXP`, the underflow bound) and `BITS - SHIFT ≤ 1024` (`f64::MAX_EXP`);
returns exactly `0` when `BITS = 0`, otherwise the raw value times the exact scale
factor. -/
def FpTy.intoF64 (T : FpTy) (x : Int) : Option ℚ :=
  if 53 < T.bits then none
  else if 1074 < T.shift then none
  else if 1024 < (T.bits : Int) - T.shift then none
  else if T.bits = 0 then some 0
  else some ((x : ℚ) * f64Lsb T.shift)

/-- Method `into_f32` of the fixed-point struct types (`num_impl.rs`): asserts that
`BITS ≤ 24`, `SHIFT ≤ 149` and `BITS - SHIFT ≤ 128`; returns exactly `0` when
`BITS = 0`, otherwise the raw value times the exact scale factor. -/
def FpTy.intoF32 (T : FpTy) (x : Int) : Option ℚ :=
  if 24 < T.bits then none
  else if 149 < T.shift then none
  else if 128 < (T.bits : Int) - T.shift then none
  else if T.bits = 0 then some 0
  else some ((x : ℚ) * f32Lsb T.shift)

/-- Plain-integer `into_f64` from `num_impl.rs`: the assert compares `BITS` with
`f32::MANTISSA_DIGITS` (24) — exactly as written in the source, even though the
function's own doc comment promises exact conversion for up to 53 bits; the
conversion itself (`self as f64`) is exact for every width the assert admits. -/
def IntTy.intoF64 (t : IntTy) (x : Int) : Option ℚ :=
  if 24 < t.width then none
  else some (x : ℚ)

/-- Truncation toward zero of a rational to an integer (the semantics of Rust's
`to_int_unchecked` on an exactly representable in-range float). -/
def ratTrunc (q : ℚ) : Int := if 0 ≤ q then ⌊q⌋ else ⌈q⌉

theorem ratTrunc_intCast (x : Int) : ratTrunc (x : ℚ) = x := by
  unfold ratTrunc
  split
  · exact Int.floor_intCast x
  · exact Int.ceil_intCast x

/-- Method `Num::from_f64` (`lib.rs`) for the fixed-point struct types.  Every
value of the model is finite, so the finiteness assert always passes; `none`
models the panic of the assertions inside `into_f64` when it is applied to the
type's own `MIN` and `MAX` during the range check. -/
def FpTy.fromF64 (T : FpTy) (val : ℚ) : Option (Except RangeError Int) :=
  match T.intoF64 T.minRaw with
  | none => none
  | some lo =>
    if val < lo then some (.error .TooSmall)
    else
      match T.intoF64 T.maxRaw with
      | none => none
      | some hi =>
        if val > hi then some (.error .TooLarge)
        else some (.ok (ratTrunc (val / f64Lsb T.shift)))

/-- Method `Num::from_f32` (`lib.rs`) for the fixed-point struct types, analogous
to `fromF64`. -/
def FpTy.fromF32 (T : FpTy) (val : ℚ) : Option (Except RangeError Int) :=
  match T.intoF32 T.minRaw with
  | none => none
  | some lo =>
    if val < lo then some (.error .TooSmall)
    else
      match T.intoF32 T.maxRaw with
      | none => none
      | some hi =>
        if val > hi then some (.error .TooLarge)
        else some (.ok (ratTrunc (val / f32Lsb T.shift)))

/-- When the representability preconditions hold, `into_f64` succeeds and is exact. -/
theorem intoF64_eq (T : FpTy) (x : Int) (hb : T.bits ≤ 53) (hs : T.shift ≤ 1074)
    (hbs : (T.bits : Int) - T.shift ≤ 1024) (h0 : T.bits = 0 → x = 0) :
    T.intoF64 x = some ((x : ℚ) * 2 ^ (-T.shift)) := by
  unfold FpTy.intoF64
  rw [if_neg (by omega), if_neg (by omega), if_neg (by omega)]
  by_cases hb0 : T.bits = 0
  · rw [if_pos hb0, h0 hb0]
    norm_num
  · rw [if_neg hb0, f64Lsb_eq T.shift hs]

/-- C6: for every type with `BITS ≤ 53`, `SHIFT ≤ 1074` and `BITS - SHIFT ≤ 1024`
and every in-range raw value, `into_f64` succeeds and returns exactly
`raw * 2^(-SHIFT)` — the exact scale factor built from the float bit pattern,
subnormal range included, never an approximate power — and `from_f64` applied to
that float reconstructs exactly the original value (round-trip law). -/
theorem f64_roundtrip (T : FpTy) (x : Int)
    (hb : T.bits ≤ 53) (hs : T.shift ≤ 1074) (hbs : (T.bits : Int) - T.shift ≤ 1024)
    (hx : T.inRange x) :
    T.intoF64 x = some ((x : ℚ) * 2 ^ (-T.shift)) ∧
    T.fromF64 ((x : ℚ) * 2 ^ (-T.shift)) = some (.ok x) := by
  have hx0 : T.bits = 0 → x = 0 := by
    intro h
    have h1 := minRaw_bits0 T h
    have h2 := maxRaw_bits0 T h
    obtain ⟨hlo, hhi⟩ := (FpTy.inRange_def _ _).mp hx
    omega
  have hmain := intoF64_eq T x hb hs hbs hx0
  have hminI := intoF64_eq T T.minRaw hb hs hbs (minRaw_bits0 T)
  have hmaxI := intoF64_eq T T.maxRaw hb hs hbs (maxRaw_bits0 T)
  refine ⟨hmain, ?_⟩
  have hspos : (0 : ℚ) < 2 ^ (-T.shift) := by positivity
  unfold FpTy.fromF64
  rw [hminI]
  dsimp only
  rw [if_neg (not_lt.mpr
    (mul_le_mul_of_nonneg_right (Int.cast_le.mpr hx.1) (le_of_lt hspos)))]
  rw [hmaxI]
  dsimp only
  rw [if_neg (not_lt.mpr
    (mul_le_mul_of_nonneg_right (Int.cast_le.mpr hx.2) (le_of_lt hspos)))]
  rw [f64Lsb_eq T.shift hs,
    mul_div_cancel_of_imp (fun h => absurd h (ne_of_gt hspos)), ratTrunc_intCast]

/-- Witness for `f64_roundtrip`: the 5-bit signed type with `SHIFT = 2` at raw 7
(logical value 7/4). -/
theorem f64_roundtrip_wit :
    FpTy.intoF64 ⟨⟨8, true⟩, 5, 2⟩ 7 = some ((7 : ℚ) * 2 ^ (-(2 : Int))) ∧
    FpTy.fromF64 ⟨⟨8, true⟩, 5, 2⟩ ((7 : ℚ) * 2 ^ (-(2 : Int))) = some (.ok 7) :=
  f64_roundtrip ⟨⟨8, true⟩, 5, 2⟩ 7 (by decide) (by decide) (by decide) (by decide)

/-- C7: the plain-integer `into_f64` asserts `BITS ≤ f32::MANTISSA_DIGITS` (24),
contradicting its own documentation (exact for up to 53 bits): converting the
32-bit integer 0 panics even though 24 < 32 ≤ 53. -/
theorem plain_into_f64_bug :
    IntTy.intoF64 ⟨32, true⟩ 0 = none ∧ 24 < 32 ∧ 32 ≤ 53 := by
  refine ⟨?_, by omega, by omega⟩
  unfold IntTy.intoF64
  rw [if_pos (by norm_num : 24 < (⟨32, true⟩ : IntTy).width)]

/-- C10: for every fixed-point struct type violating the into-float
representability preconditions, the checked from-float constructor panics for
every finite input — it range-checks by converting the type's own `MIN` through
the asserting into-float conversion — rather than returning `Ok` or a
`RangeError`. -/
theorem from_float_panics (T : FpTy) :
    ((53 < T.bits ∨ 1074 < T.shift ∨ 1024 < (T.bits : Int) - T.shift) →
      ∀ val : ℚ, T.fromF64 val = none) ∧
    ((24 < T.bits ∨ 149 < T.shift ∨ 128 < (T.bits : Int) - T.shift) →
      ∀ val : ℚ, T.fromF32 val = none) := by
  constructor
  · intro h val
    have hnone : T.intoF64 T.minRaw = none := by
      unfold FpTy.intoF64
      split_ifs with h1 h2 h3 h4 <;> first | rfl | omega
    unfold FpTy.fromF64
    rw [hnone]
  · intro h val
    have hnone : T.intoF32 T.minRaw = none := by
      unfold FpTy.intoF32
      split_ifs with h1 h2 h3 h4 <;> first | rfl | omega
    unfold FpTy.fromF32
    rw [hnone]

/-- Witness for `from_float_panics`: a 54-bit type rejects every `from_f64` input,
and a 25-bit type rejects every `from_f32` input. -/
theorem from_float_panics_wit :
    FpTy.fromF64 ⟨⟨64, true⟩, 54, 0⟩ 0 = none ∧
    FpTy.fromF32 ⟨⟨32, true⟩, 25, 0⟩ 0 = none :=
  ⟨(from_float_panics ⟨⟨64, true⟩, 54, 0⟩).1 (Or.inl (by decide)) 0,
    (from_float_panics ⟨⟨32, true⟩, 25, 0⟩).2 (Or.inl (by decide)) 0⟩

end Fp
